import Mathlib

/-!
Shallow embedding of the option-chain scanner `src/app.py` (acquisition layer,
normalizer, signal engine, surge detector, realtime loop) together with proofs
of the spec's claims about it.

Numbers are modelled by `ℚ`: the Python code manipulates floats, but every
claim under study is about comparison/ordering/branching structure, not about
binary rounding of IEEE floats.  Python `round(x, n)` is modelled by
`roundN x = round (x * 10^n) / 10^n` (rounding half away from even differs
from CPython's banker rounding only at exact ties, which no claim exercises).
Python `None` is modelled by `Option.none`; a raw JSON value that
`safe_float` can convert is modelled as the converted rational, a value it
cannot convert as `none` (`safe_float` is then the identity on `Option ℚ`
and is inlined).  Python truthiness on a numeric value `v` is `v ≠ 0` on
`some v` and false on `none`.
-/

/-- Python `round(x, 2)` (to 2 decimal places). -/
def round2 (q : ℚ) : ℚ := (round (q * 100) : ℚ) / 100

/-- Python `round(x, 1)` (to 1 decimal place). -/
def round1 (q : ℚ) : ℚ := (round (q * 10) : ℚ) / 10

/-- Python `int(x)`: truncation toward zero. -/
def intTrunc (q : ℚ) : ℤ := if 0 ≤ q then ⌊q⌋ else ⌈q⌉

/-- Python truthiness of an optional numeric value (`if v:`). -/
def truthy : Option ℚ → Bool
  | none => false
  | some v => decide (v ≠ 0)

/-- Option side: `"CE"` (call) or `"PE"` (put). -/
inductive Side where
  | CE : Side
  | PE : Side
  deriving DecidableEq, Repr

/-- One normalized per-strike row as produced by `parse_rows` in `src/app.py`
(the dict with keys `strike`, `CE_iv`, `PE_iv`, `CE_ltp`, `PE_ltp`, `CE_vol`,
`PE_vol`, `expiry`; the constant `symbol`/`underlying` fields are carried by
the surrounding snapshot and omitted here). -/
structure Row where
  strike : Option ℚ
  CE_iv : Option ℚ
  PE_iv : Option ℚ
  CE_ltp : Option ℚ
  PE_ltp : Option ℚ
  CE_vol : Option ℚ
  PE_vol : Option ℚ
  expiry : Option String
  deriving DecidableEq, Repr

/-- Field access `r.get(f"{side}_iv")`. -/
def Row.iv (r : Row) : Side → Option ℚ
  | Side.CE => r.CE_iv
  | Side.PE => r.PE_iv

/-- Field access `r.get(f"{side}_ltp")`. -/
def Row.ltp (r : Row) : Side → Option ℚ
  | Side.CE => r.CE_ltp
  | Side.PE => r.PE_ltp

/-- Field access `r.get(f"{side}_vol")`. -/
def Row.vol (r : Row) : Side → Option ℚ
  | Side.CE => r.CE_vol
  | Side.PE => r.PE_vol

/-! ### nearest_strike_iv (src/app.py lines 113-127) -/

/-- The data the loop body of `nearest_strike_iv` reads from a row: its strike
and its IV for the requested side, available only when both are non-`None`. -/
def pick (side : Side) (r : Row) : Option (ℚ × ℚ) :=
  match r.iv side, r.strike with
  | some iv, some s => some (s, iv)
  | _, _ => none

/-- Loop of `nearest_strike_iv`: `best, bestd = None, inf`, then for each row
with usable IV and strike, replace the best on strictly smaller distance.  The
accumulator stores `((best_strike, best_iv), bestd)`. -/
def nsiGo (u : ℚ) (side : Side) : List Row → Option ((ℚ × ℚ) × ℚ) → Option ((ℚ × ℚ) × ℚ)
  | [], acc => acc
  | r :: rest, acc =>
    match pick side r with
    | none => nsiGo u side rest acc
    | some (s, iv) =>
      let d := |s - u|
      match acc with
      | none => nsiGo u side rest (some ((s, iv), d))
      | some (b, bd) =>
        if d < bd then nsiGo u side rest (some ((s, iv), d))
        else nsiGo u side rest (some (b, bd))

/-- `nearest_strike_iv(rows, under, side)`: `(None, None)` when no row was
usable, else the kept row's `(strike, iv)`. -/
def nearest_strike_iv (rows : List Row) (under : ℚ) (side : Side) : Option (ℚ × ℚ) :=
  (nsiGo under side rows none).map Prod.fst

/-! ### get_straddle_info (src/app.py lines 130-157) -/

/-- Result record of `get_straddle_info` when it is defined: straddle price,
averaged IV, the ATM strike used (the fourth returned component, a display
label `f"{atm} CE + {atm} PE"`, is determined by the strike and omitted). -/
structure StraddleOut where
  price : ℚ
  iv : ℚ
  atm : ℚ
  deriving DecidableEq, Repr

/-- First loop of `get_straddle_info`: the first row whose strike is truthy
and within `0.1` of the underlying (with `break`). -/
def atmExact : List Row → ℚ → Option ℚ
  | [], _ => none
  | r :: rest, u =>
    match r.strike with
    | some s => if s ≠ 0 ∧ |s - u| < 1/10 then some s else atmExact rest u
    | none => atmExact rest u

/-- Tail of the fallback `min(rows, key=lambda x: abs(x["strike"] - underlying))`:
keeps the first minimizer; computing the key of a row with `None` strike raises
`TypeError` (modelled as `Except.error`). -/
def atmFallbackGo (u : ℚ) : List Row → ℚ × ℚ → Except Unit (ℚ × ℚ)
  | [], acc => Except.ok acc
  | r :: rest, (bs, bd) =>
    match r.strike with
    | none => Except.error ()
    | some s =>
      let d := |s - u|
      if d < bd then atmFallbackGo u rest (s, d) else atmFallbackGo u rest (bs, bd)

/-- Fallback ATM resolution `min(rows, key=...)["strike"]` (raises on an empty
list or on a row whose strike is `None`). -/
def atmFallback (rows : List Row) (u : ℚ) : Except Unit ℚ :=
  match rows with
  | [] => Except.error ()
  | r :: rest =>
    match r.strike with
    | none => Except.error ()
    | some s => (atmFallbackGo u rest (s, |s - u|)).map Prod.fst

/-- ATM strike used by `get_straddle_info`: exact match within `0.1` if any,
else the globally nearest strike. -/
def resolveATM (rows : List Row) (u : ℚ) : Except Unit ℚ :=
  match atmExact rows u with
  | some s => Except.ok s
  | none => atmFallback rows u

/-- Second loop of `get_straddle_info` for the CE leg: scans all rows (no
`break`), so the last row at the ATM strike with truthy `CE_ltp` wins. -/
def ceLegRow (rows : List Row) (atm : ℚ) : Option Row :=
  rows.foldl (fun acc r => if r.strike = some atm ∧ truthy r.CE_ltp then some r else acc) none

/-- Second loop of `get_straddle_info` for the PE leg. -/
def peLegRow (rows : List Row) (atm : ℚ) : Option Row :=
  rows.foldl (fun acc r => if r.strike = some atm ∧ truthy r.PE_ltp then some r else acc) none

/-- `get_straddle_info(rows, underlying)`.  `Except.error` models an uncaught
Python exception (`TypeError` from `None` arithmetic); `Except.ok none` is the
all-`None` tuple `(None, None, None, None)`. -/
def get_straddle_info (rows : List Row) (underlying : Option ℚ) : Except Unit (Option StraddleOut) :=
  match underlying with
  | none => Except.ok none
  | some u =>
    if rows = [] then Except.ok none
    else
      match resolveATM rows u with
      | Except.error e => Except.error e
      | Except.ok atm =>
        match ceLegRow rows atm, peLegRow rows atm with
        | some rc, some rp =>
          match rc.CE_iv, rp.PE_iv with
          | some a, some b =>
            Except.ok (some ⟨round2 (rc.CE_ltp.getD 0 + rp.PE_ltp.getD 0), round2 ((a + b) / 2), atm⟩)
          | _, _ => Except.error ()
        | _, _ => Except.ok none

/-! ### parse_rows (src/app.py lines 79-110) -/

/-- A raw `CE`/`PE` sub-object of one upstream chain entry; each field is the
`safe_float` view of the corresponding raw JSON value. -/
structure RawLeg where
  impliedVolatility : Option ℚ
  lastPrice : Option ℚ
  totalTradedVolume : Option ℚ
  lastTradedVolume : Option ℚ
  totalTradedQty : Option ℚ
  deriving DecidableEq, Repr

/-- The empty dict `{}` used when a `CE`/`PE` sub-object is absent or falsy. -/
def RawLeg.empty : RawLeg := ⟨none, none, none, none, none⟩

/-- One entry of `records["data"]`. -/
structure RawItem where
  strikePrice : Option ℚ
  expiryDate : Option String
  CE : Option RawLeg
  PE : Option RawLeg
  deriving DecidableEq, Repr

/-- The `records` object of the upstream JSON. -/
structure Records where
  expiryDates : List String
  data : List RawItem
  underlyingValue : Option ℚ
  index : Option String
  underlyingName : Option String
  deriving DecidableEq, Repr

/-- A chain snapshot as returned by `parse_rows`. -/
structure Snapshot where
  rows : List Row
  expiries : List String
  underlying : Option ℚ
  symbol_name : Option String
  deriving DecidableEq, Repr

/-- Python `a or b` on optional strings (string truthiness: `""` is falsy). -/
def orStr (a b : Option String) : Option String :=
  match a with
  | some x => if x = "" then b else some x
  | none => b

/-- The volume chain `safe_float(leg.get("totalTradedVolume") or
leg.get("lastTradedVolume") or leg.get("totalTradedQty"))`: first truthy raw
value, else the last raw value as-is. -/
def volChain (a b c : Option ℚ) : Option ℚ :=
  match a with
  | some x => if x ≠ 0 then some x else volChain2 b c
  | none => volChain2 b c
where
  volChain2 (b c : Option ℚ) : Option ℚ :=
    match b with
    | some y => if y ≠ 0 then some y else c
    | none => c

/-- Expiry filter `if chosen_expiry and expiry != chosen_expiry: continue`
(a falsy chosen expiry, `None` or `""`, disables filtering). -/
def expiryKeep (chosen : Option String) (e : Option String) : Bool :=
  match chosen with
  | none => true
  | some c => if c = "" then true else decide (e = some c)

/-- Construction of one row dict from one chain entry. -/
def mkRow (item : RawItem) : Row :=
  let ce := item.CE.getD RawLeg.empty
  let pe := item.PE.getD RawLeg.empty
  { strike := item.strikePrice
    CE_iv := ce.impliedVolatility
    PE_iv := pe.impliedVolatility
    CE_ltp := ce.lastPrice
    PE_ltp := pe.lastPrice
    CE_vol := volChain ce.totalTradedVolume ce.lastTradedVolume ce.totalTradedQty
    PE_vol := volChain pe.totalTradedVolume pe.lastTradedVolume pe.totalTradedQty
    expiry := item.expiryDate }

/-- Ascending-strike order used by `rows.sort(key=lambda r: r["strike"])`
(every sorted row has a `some` strike, so the `getD` default is never read). -/
def rowLE (a b : Row) : Prop := a.strike.getD 0 ≤ b.strike.getD 0

instance : DecidableRel rowLE := fun a b => inferInstanceAs (Decidable (_ ≤ _))

instance : IsTotal Row rowLE := ⟨fun a b => le_total (a.strike.getD 0) (b.strike.getD 0)⟩

instance : IsTrans Row rowLE := ⟨fun _ _ _ h h' => le_trans h h'⟩

/-- `parse_rows(oc_json, chosen_expiry)`.  A missing or malformed top-level
structure (`not oc_json or "records" not in oc_json`) is the `none` input. -/
def parse_rows (oc : Option Records) (chosen : Option String) : Snapshot :=
  match oc with
  | none => ⟨[], [], none, none⟩
  | some rec =>
    let symbol_name := orStr rec.index rec.underlyingName
    let rows0 := rec.data.filterMap fun item =>
      if expiryKeep chosen item.expiryDate then some (mkRow item) else none
    let rows1 := rows0.filter fun r => r.strike.isSome
    ⟨rows1.insertionSort rowLE, rec.expiryDates, rec.underlyingValue, symbol_name⟩

/-! ### build_hits (src/app.py lines 212-239) -/

/-- One breakout hit dict. -/
structure Hit where
  strike : ℚ
  iv : ℚ
  ltp : Option ℚ
  inc : ℚ
  dist_pct : ℚ
  deriving DecidableEq, Repr

/-- Descending order on the Python sort key `(inc, -abs(dist_pct))` used by
`hits.sort(key=lambda x: (x["inc"], -abs(x["dist_pct"])), reverse=True)`:
`a` may precede `b` iff `a`'s key is lexicographically ≥ `b`'s. -/
def hitGE (a b : Hit) : Prop :=
  b.inc < a.inc ∨ (b.inc = a.inc ∧ -|b.dist_pct| ≤ -|a.dist_pct|)

instance : DecidableRel hitGE := fun a b => inferInstanceAs (Decidable (_ ∨ _))

instance : IsTotal Hit hitGE := by
  constructor
  intro a b
  rcases lt_trichotomy a.inc b.inc with h | h | h
  · exact Or.inr (Or.inl h)
  · rcases le_total (-|a.dist_pct|) (-|b.dist_pct|) with h2 | h2
    · exact Or.inr (Or.inr ⟨h, h2⟩)
    · exact Or.inl (Or.inr ⟨h.symm, h2⟩)
  · exact Or.inl (Or.inl h)

instance : IsTrans Hit hitGE := by
  constructor
  rintro a b c (h1 | ⟨e1, d1⟩) (h2 | ⟨e2, d2⟩)
  · exact Or.inl (h2.trans h1)
  · exact Or.inl (lt_of_le_of_lt e2.le h1)
  · exact Or.inl (lt_of_lt_of_le h2 e1.le)
  · exact Or.inr ⟨e2.trans e1, d2.trans d1⟩

/-- `build_hits(side_name, comp)` from `scan_symbols` (the enclosing scope
supplies `rows`, `under` and `thr`): collect qualifying strikes on the OTM
side of the underlying whose IV exceeds the ATM IV `comp` by at least `thr`,
then sort descending on `(inc, -abs(dist_pct))`. -/
def build_hits (rows : List Row) (under thr : ℚ) (side : Side) (comp : Option ℚ) : List Hit :=
  match comp with
  | none => []
  | some c =>
    let hits := rows.filterMap fun r =>
      match r.iv side, r.strike with
      | some iv, some strike =>
        if (side = Side.CE ∧ strike < under) ∨ (side = Side.PE ∧ strike > under) then none
        else
          let inc := iv - c
          if inc ≥ thr then
            some ⟨strike, iv, r.ltp side, round2 inc, round2 (|strike - under| / under * 100)⟩
          else none
      | _, _ => none
    hits.insertionSort hitGE

/-! ### Premium surge detector (src/app.py lines 710-839) -/

/-- Severity tier `"NUCLEAR" if pct >= 1000 else "EXTREME" if pct >= 500 else
"STRONG" if pct >= 300 else "GOOD"`. -/
def strengthOf (pct : ℚ) : String :=
  if pct ≥ 1000 then "NUCLEAR"
  else if pct ≥ 500 then "EXTREME"
  else if pct ≥ 300 then "STRONG"
  else "GOOD"

/-- One surge event dict appended to `out` by `api_premium_surge`. -/
structure SurgeEvent where
  symbol : String
  expiry : Option String
  strike : ℤ
  side : Side
  prev : ℚ
  curr : ℚ
  pct : ℚ
  speed : ℚ
  volume : ℤ
  lots : ℚ
  strength : String
  typ : String
  deriving DecidableEq, Repr

/-- Append on a `deque(maxlen=5)` (oldest element first in the list). -/
def pushBounded (l : List ℚ) (x : ℚ) : List ℚ :=
  if l.length < 5 then l ++ [x] else l.tail ++ [x]

/-- The OTM buffer guard: `strike > under + 10` for CE, `strike < under - 10`
for PE. -/
def otmBuffer (side : Side) (strike under : ℚ) : Prop :=
  match side with
  | Side.CE => strike > under + 10
  | Side.PE => strike < under - 10

instance (side : Side) (strike under : ℚ) : Decidable (otmBuffer side strike under) :=
  match side with
  | Side.CE => inferInstanceAs (Decidable (_ > _))
  | Side.PE => inferInstanceAs (Decidable (_ < _))

/-- One per-row, per-side step of `api_premium_surge` on the history deque of
the key `(sym, expiry, strike, side)`: possibly emit an event, and append the
current price to the history whenever the `if ltp and <OTM buffer>` guard
holds.  `hist` lists the stored prices oldest first, so `hist.getLast?` is
`cache[side][-1]` and the head of `hist` is `cache[side][0]`. -/
def surgeStep (sym : String) (expiry : Option String) (lotSize minPct under : ℚ)
    (side : Side) (strike : ℚ) (ltp : Option ℚ) (vol : ℚ) (hist : List ℚ) :
    List ℚ × Option SurgeEvent :=
  match ltp with
  | none => (hist, none)
  | some p =>
    if p ≠ 0 ∧ otmBuffer side strike under then
      let ev : Option SurgeEvent :=
        match hist.getLast? with
        | none => none
        | some prev =>
          if prev > 1/10 then
            let pct := (p - prev) / prev * 100
            let speed : ℚ :=
              if 3 ≤ hist.length then (p - hist.headI) / hist.headI * 100 else 0
            let lots := vol / lotSize
            if pct ≥ minPct then
              some { symbol := sym, expiry := expiry, strike := intTrunc strike
                     side := side, prev := round2 prev, curr := round2 p
                     pct := round1 pct, speed := round1 speed
                     volume := intTrunc vol, lots := round2 lots
                     strength := strengthOf pct
                     typ := if lots < 5 then "OTM_BOMB" else "INSTITUTIONAL_BOMB" }
            else none
          else none
      (pushBounded hist p, ev)
    else (hist, none)

/-- One observation of a fixed `(symbol, expiry, strike, side)` key on one
scan tick: the underlying, the caller threshold, the side's LTP and volume
(`r.get("CE_vol") or 0` is already folded into `vol`). -/
structure SurgeObs where
  under : ℚ
  minPct : ℚ
  ltp : Option ℚ
  vol : ℚ
  deriving Repr

/-- History of one key after a sequence of observations, starting from the
fresh `deque(maxlen=5)` installed on first sight of the key. -/
def surgeHist (sym : String) (expiry : Option String) (lotSize : ℚ)
    (side : Side) (strike : ℚ) (obs : List SurgeObs) : List ℚ :=
  obs.foldl
    (fun h o => (surgeStep sym expiry lotSize o.minPct o.under side strike o.ltp o.vol h).1)
    []

/-- Ranking score `scoreBomb` (src/app.py lines 830-836). -/
def scoreBomb (x : SurgeEvent) : ℚ :=
  let s0 := x.pct
  let s1 := if x.strength = "NUCLEAR" then s0 + 5000 else s0
  let s2 := if x.strength = "EXTREME" then s1 + 2000 else s1
  let s3 := if x.speed > x.pct * (3/2) then s2 + 1000 else s2
  if x.typ = "INSTITUTIONAL_BOMB" then s3 + 500 else s3

/-- Descending order on `scoreBomb` used by `out.sort(key=scoreBomb, reverse=True)`. -/
def scoreGE (a b : SurgeEvent) : Prop := scoreBomb b ≤ scoreBomb a

instance : DecidableRel scoreGE := fun a b => inferInstanceAs (Decidable (_ ≤ _))

instance : IsTotal SurgeEvent scoreGE := ⟨fun a b => le_total (scoreBomb b) (scoreBomb a)⟩

instance : IsTrans SurgeEvent scoreGE := ⟨fun _ _ _ h h' => le_trans h' h⟩

/-- The tail of `api_premium_surge`: sort all collected events by `scoreBomb`
descending and keep the top 50 (`out[:50]`). -/
def rankSurge (out : List SurgeEvent) : List SurgeEvent :=
  (out.insertionSort scoreGE).take 50

/-- An event as `api_premium_surge` actually builds it: its `strength` string
was computed by `strengthOf` from the raw (unrounded) percentage jump of which
the stored `pct` is the 1-decimal rounding. -/
def WellFormedEvent (e : SurgeEvent) : Prop :=
  ∃ raw : ℚ, e.strength = strengthOf raw ∧ e.pct = round1 raw

/-! ### get_json and prime (src/app.py lines 46-69) -/

/-- Outcome of one upstream HTTP attempt: a status code with a parsed body
(the body is abstracted to `ℚ`), or a network-level `requests.RequestException`. -/
inductive FetchOutcome where
  | status : ℕ → ℚ → FetchOutcome
  | netErr : FetchOutcome
  deriving DecidableEq, Repr

/-- Observable step of the fetch layer: issuing attempt `i`, the session
re-priming call, or the fixed `time.sleep(0.5)` delay. -/
inductive NetAction where
  | attempt : ℕ → NetAction
  | primeAct : NetAction
  | sleepAct : NetAction
  deriving DecidableEq, Repr

/-- `prime()` (src/app.py lines 46-52): two warm-up GETs inside a
`try/except requests.RequestException` whose handler only logs, so the call
returns normally whatever the two GETs do. -/
def primeRun (g1 g2 : Except Unit Unit) : Except Unit Unit :=
  match g1 with
  | Except.error _ => Except.ok ()
  | Except.ok _ =>
    match g2 with
    | Except.error _ => Except.ok ()
    | Except.ok _ => Except.ok ()

/-- Actions taken after a failed attempt, before the next loop iteration:
`prime()` on 401/403 or on a network failure, then `time.sleep(0.5)` in every
failure branch. -/
def failActs : FetchOutcome → List NetAction
  | FetchOutcome.status c _ =>
    if c = 401 ∨ c = 403 then [NetAction.primeAct, NetAction.sleepAct] else [NetAction.sleepAct]
  | FetchOutcome.netErr => [NetAction.primeAct, NetAction.sleepAct]

/-- The retry loop of `get_json(url, retries)`: `env i` is the outcome of the
`i`-th attempt; returns the parsed body on status 200, else runs the failure
actions and retries; raising `RuntimeError("NSE fetch failed")` after the
last attempt is the `Except.error` result. -/
def get_json_go (env : ℕ → FetchOutcome) : ℕ → ℕ → Except Unit ℚ × List NetAction
  | 0, _ => (Except.error (), [])
  | n + 1, i =>
    match env i with
    | FetchOutcome.status c b =>
      if c = 200 then (Except.ok b, [NetAction.attempt i])
      else
        let rest := get_json_go env n (i + 1)
        (rest.1, NetAction.attempt i :: (failActs (FetchOutcome.status c b) ++ rest.2))
    | FetchOutcome.netErr =>
      let rest := get_json_go env n (i + 1)
      (rest.1, NetAction.attempt i :: (failActs FetchOutcome.netErr ++ rest.2))

/-- `get_json(url)` with the default bound of 3 attempts. -/
def get_json (env : ℕ → FetchOutcome) : Except Unit ℚ × List NetAction :=
  get_json_go env 3 0

/-! ### Realtime loop (src/app.py lines 856-898) -/

/-- Observable step of one `_bg_loop` iteration: a scan (`scan_symbols`), a
publication (`socketio.emit("update_data", ...)`), or a sleep of the given
number of seconds. -/
inductive RtAction where
  | scan : RtAction
  | publish : RtAction
  | sleep : ℕ → RtAction
  deriving DecidableEq, Repr

/-- `_bg_loop` (src/app.py lines 877-887): `flag i` is the value of
`_realtime_tasks[sid]["running"]` at the `i`-th `while` check (a concurrent
`stop_realtime` or disconnect clears it), `scanFails i` tells whether the
`i`-th iteration's body raises.  On success the body scans and publishes; on
failure the handler sleeps `max(1, interval)`.  `fuel` bounds the unfolding of
the unbounded loop. -/
def bgLoop (flag : ℕ → Bool) (scanFails : ℕ → Bool) (interval : ℕ) : ℕ → ℕ → List RtAction
  | 0, _ => []
  | n + 1, i =>
    if flag i then
      (if scanFails i then [RtAction.scan, RtAction.sleep (max 1 interval)]
       else [RtAction.scan, RtAction.publish]) ++ bgLoop flag scanFails interval n (i + 1)
    else []

/-- Recognizer for attempt actions in a fetch trace. -/
def isAttempt : NetAction → Bool
  | NetAction.attempt _ => true
  | _ => false

/-- Rows in ascending-strike order (vacuous on an undefined strike). -/
def strikeOrdered (a b : Row) : Prop :=
  ∀ sa sb, a.strike = some sa → b.strike = some sb → sa ≤ sb

/-- A row at strike 100 with both legs quoted and both IVs present. -/
def c6row : Row := ⟨some 100, some 12, some 14, some 5, some 7, none, none, none⟩

/-- A one-row chain consisting of `c6row`. -/
def c6rows : List Row := [c6row]

/-- A one-row chain at strike 100 with both LTPs quoted but no IV on either
leg. -/
def c6badRows : List Row :=
  [⟨some 100, none, none, some 5, some 7, none, none, none⟩]

/-- A one-row chain at strike 50 whose CE leg has LTP and IV but whose PE leg
has an LTP and no IV. -/
def c10rows : List Row :=
  [⟨some 50, some 12, none, some 3, some 4, none, none, none⟩]

/-- Two CE rows above the underlying with the same IV, hence the same
increment, at 10% and 20% distance. -/
def c1rows : List Row :=
  [⟨some 110, some 15, none, none, none, none, none, none⟩,
   ⟨some 120, some 15, none, none, none, none, none, none⟩]

/-- The hit order claimed by C1, as a boolean check: increment descending
with ties broken by the larger distance-from-underlying percent first. -/
def c1claimOrderB (l : List Hit) : Bool :=
  decide (l.Pairwise fun a b => b.inc < a.inc ∨ (b.inc = a.inc ∧ b.dist_pct ≤ a.dist_pct))

/-- A concrete upstream chain entry at strike 100 for expiry "X". -/
def c8item : RawItem := ⟨some 100, some "X", none, none⟩

/-- A concrete upstream `records` object holding `c8item`. -/
def c8rec : Records := ⟨["X"], [c8item], some 99, some "SYM", none⟩

/-! ### Theorems -/

/-- Claim C8: for every raw JSON input and optional chosen expiry the
normalizer's snapshot has its rows sorted non-decreasing by strike, no row has
an undefined strike, and a missing/malformed top-level structure yields the
empty snapshot (no rows, no expiries, undefined underlying) instead of an
exception. -/
theorem C8_parse_rows_invariants :
    ∀ (oc : Option Records) (chosen : Option String),
      ((parse_rows oc chosen).rows.Sorted rowLE ∧
        ∀ r ∈ (parse_rows oc chosen).rows, r.strike.isSome) ∧
      parse_rows none chosen = ⟨[], [], none, none⟩ := by
  intro oc chosen
  refine ⟨⟨?_, ?_⟩, rfl⟩
  · cases oc with
    | none => simp [parse_rows, List.Sorted]
    | some rec => exact List.sorted_insertionSort rowLE _
  · intro r hr
    cases oc with
    | none => simp [parse_rows] at hr
    | some rec =>
      have hr2 := (List.mem_insertionSort rowLE).mp hr
      exact (List.mem_filter.mp hr2).2


lemma failActs_no_attempt (o : FetchOutcome) : (failActs o).countP isAttempt = 0 := by
  cases o with
  | status c b =>
    by_cases h : c = 401 ∨ c = 403
    · show List.countP _ (if _ then _ else _) = 0
      rw [if_pos h]
      decide
    · show List.countP _ (if _ then _ else _) = 0
      rw [if_neg h]
      decide
  | netErr => decide

lemma get_json_go_attempts (env : ℕ → FetchOutcome) :
    ∀ (n i : ℕ), ((get_json_go env n i).2.countP isAttempt) ≤ n := by
  intro n
  induction n with
  | zero => intro i; simp [get_json_go]
  | succ n ih =>
    intro i
    rcases h : env i with ⟨c, b⟩ | _
    · by_cases hc : c = 200
      · subst hc
        simp [get_json_go, h, List.countP_cons, isAttempt]
      · have := ih (i + 1)
        simp [get_json_go, h, if_neg hc, List.countP_cons, List.countP_append,
          failActs_no_attempt, isAttempt]
        omega
    · have := ih (i + 1)
      simp [get_json_go, h, List.countP_cons, List.countP_append,
        failActs_no_attempt, isAttempt]
      omega

lemma get_json_go_ok (env : ℕ → FetchOutcome) :
    ∀ (n i : ℕ) (b : ℚ), (get_json_go env n i).1 = Except.ok b →
      ∃ j, i ≤ j ∧ j < i + n ∧ env j = FetchOutcome.status 200 b := by
  intro n
  induction n with
  | zero => intro i b h; simp [get_json_go] at h
  | succ n ih =>
    intro i b h
    rcases he : env i with ⟨c, b'⟩ | _
    · by_cases hc : c = 200
      · subst hc
        simp only [get_json_go, he, if_pos rfl] at h
        cases h
        exact ⟨i, le_refl i, by omega, he⟩
      · simp only [get_json_go, he, if_neg hc] at h
        obtain ⟨j, hj1, hj2, hj3⟩ := ih (i + 1) b h
        exact ⟨j, by omega, by omega, hj3⟩
    · simp only [get_json_go, he] at h
      obtain ⟨j, hj1, hj2, hj3⟩ := ih (i + 1) b h
      exact ⟨j, by omega, by omega, hj3⟩

lemma get_json_go_exhaust (env : ℕ → FetchOutcome) :
    ∀ (n i : ℕ), (∀ j, i ≤ j → j < i + n → ∀ b, env j ≠ FetchOutcome.status 200 b) →
      (get_json_go env n i).1 = Except.error () := by
  intro n
  induction n with
  | zero => intro i _; simp [get_json_go]
  | succ n ih =>
    intro i hno
    rcases he : env i with ⟨c, b'⟩ | _
    · by_cases hc : c = 200
      · subst hc
        exact absurd he (hno i (le_refl i) (by omega) b')
      · simp only [get_json_go, he, if_neg hc]
        exact ih (i + 1) fun j h1 h2 b => hno j (by omega) (by omega) b
    · simp only [get_json_go, he]
      exact ih (i + 1) fun j h1 h2 b => hno j (by omega) (by omega) b

lemma get_json_go_fail_step (env : ℕ → FetchOutcome) (n i : ℕ)
    (h : ∀ b, env i ≠ FetchOutcome.status 200 b) :
    (get_json_go env (n + 1) i).2
      = NetAction.attempt i :: (failActs (env i) ++ (get_json_go env n (i + 1)).2) := by
  rcases he : env i with ⟨c, b'⟩ | _
  · have hc : c ≠ 200 := by
      intro hc
      exact h b' (by rw [he, hc])
    simp [get_json_go, he, if_neg hc]
  · simp [get_json_go, he]

/-- Claim C9: `get_json` makes at most 3 attempts, returns the parsed body on
HTTP 200, re-primes the session before the next attempt on 401/403 and on any
network-level failure (re-priming itself never raising), sleeps a fixed short
delay after every failed attempt and, after exhausting all attempts, fails
with the fetch-exhausted error instead of returning a value. -/
theorem C9_get_json_retry (env : ℕ → FetchOutcome) :
    ((get_json env).2.countP isAttempt ≤ 3) ∧
    (∀ b, (get_json env).1 = Except.ok b → ∃ j, j < 3 ∧ env j = FetchOutcome.status 200 b) ∧
    (∀ b, env 0 = FetchOutcome.status 200 b → get_json env = (Except.ok b, [NetAction.attempt 0])) ∧
    (∀ i n, (∀ b, env i ≠ FetchOutcome.status 200 b) →
      (get_json_go env (n + 1) i).2
        = NetAction.attempt i :: (failActs (env i) ++ (get_json_go env n (i + 1)).2)) ∧
    (∀ c b, c = 401 ∨ c = 403 → NetAction.primeAct ∈ failActs (FetchOutcome.status c b)) ∧
    (NetAction.primeAct ∈ failActs FetchOutcome.netErr) ∧
    (∀ c b, c ≠ 200 → NetAction.sleepAct ∈ failActs (FetchOutcome.status c b)) ∧
    (NetAction.sleepAct ∈ failActs FetchOutcome.netErr) ∧
    ((∀ j, j < 3 → ∀ b, env j ≠ FetchOutcome.status 200 b) → (get_json env).1 = Except.error ()) ∧
    (∀ g1 g2, primeRun g1 g2 = Except.ok ()) := by
  refine ⟨get_json_go_attempts env 3 0, ?_, ?_, ?_, ?_, ?_, ?_, ?_, ?_, ?_⟩
  · intro b h
    obtain ⟨j, _, hj2, hj3⟩ := get_json_go_ok env 3 0 b h
    exact ⟨j, by omega, hj3⟩
  · intro b h
    simp [get_json, get_json_go, h]
  · intro i n h
    exact get_json_go_fail_step env n i h
  · intro c b hc
    rcases hc with hc | hc <;> subst hc <;> simp [failActs]
  · simp [failActs]
  · intro c b hc
    simp [failActs]
    split <;> simp
  · simp [failActs]
  · intro h
    exact get_json_go_exhaust env 3 0 fun j h1 h2 b => h j (by omega) b
  · intro g1 g2
    rcases g1 with _ | _ <;> rcases g2 with _ | _ <;> rfl

/-- Witness for C9 at a concrete environment: a permanently failing network
exhausts the 3 attempts into the fetch-exhausted error, and a 401 failure's
follow-up actions include the re-priming step. -/
theorem C9_witness :
    (get_json fun _ => FetchOutcome.netErr).1 = Except.error () ∧
    NetAction.primeAct ∈ failActs (FetchOutcome.status 401 0) :=
  ⟨(C9_get_json_retry fun _ => FetchOutcome.netErr).2.2.2.2.2.2.2.2.1
      (fun _ _ _ h => nomatch h),
   (C9_get_json_retry fun _ => FetchOutcome.netErr).2.2.2.2.1 401 0 (Or.inl rfl)⟩

lemma pushBounded_le (l : List ℚ) (x : ℚ) (h : l.length ≤ 5) : (pushBounded l x).length ≤ 5 := by
  unfold pushBounded
  split
  · simp only [List.length_append, List.length_cons, List.length_nil]
    omega
  · simp only [List.length_append, List.length_tail, List.length_cons, List.length_nil]
    omega

lemma surgeStep_hist_le (sym : String) (expiry : Option String)
    (lotSize minPct under : ℚ) (side : Side) (strike : ℚ) (ltp : Option ℚ) (vol : ℚ)
    (hist : List ℚ) (h : hist.length ≤ 5) :
    ((surgeStep sym expiry lotSize minPct under side strike ltp vol hist).1).length ≤ 5 := by
  rcases ltp with _ | p
  · simpa [surgeStep] using h
  · by_cases hg : p ≠ 0 ∧ otmBuffer side strike under
    · simpa [surgeStep, if_pos hg] using pushBounded_le hist p h
    · simpa [surgeStep, if_neg hg] using h

lemma surgeHist_go_le (sym : String) (expiry : Option String) (lotSize : ℚ)
    (side : Side) (strike : ℚ) :
    ∀ (obs : List SurgeObs) (hist : List ℚ), hist.length ≤ 5 →
      ((obs.foldl
          (fun h o => (surgeStep sym expiry lotSize o.minPct o.under side strike o.ltp o.vol h).1)
          hist).length ≤ 5) := by
  intro obs
  induction obs with
  | nil => intro hist h; simpa using h
  | cons o rest ih =>
    intro hist h
    exact ih _ (surgeStep_hist_le sym expiry lotSize o.minPct o.under side strike o.ltp o.vol hist h)

/-- Claim C2: the per-key surge history never exceeds 5 stored prices; an
event is emitted only if the most recent prior price exceeds 0.1, the strike
clears the 10-unit OTM buffer and the jump percentage meets `min_pct`; and a
qualifying observation's current price is appended to the history whether or
not an event was emitted. -/
theorem C2_surge_history (sym : String) (expiry : Option String) (lotSize : ℚ)
    (side : Side) (strike : ℚ) :
    (∀ obs : List SurgeObs, (surgeHist sym expiry lotSize side strike obs).length ≤ 5) ∧
    (∀ minPct under ltp vol hist ev,
        (surgeStep sym expiry lotSize minPct under side strike ltp vol hist).2 = some ev →
        ∃ p prev, ltp = some p ∧ hist.getLast? = some prev ∧ prev > 1/10 ∧
          otmBuffer side strike under ∧ (p - prev) / prev * 100 ≥ minPct) ∧
    (∀ minPct under p vol hist, p ≠ 0 → otmBuffer side strike under →
        (surgeStep sym expiry lotSize minPct under side strike (some p) vol hist).1
          = pushBounded hist p) := by
  refine ⟨?_, ?_, ?_⟩
  · intro obs
    exact surgeHist_go_le sym expiry lotSize side strike obs [] (by simp)
  · intro minPct under ltp vol hist ev h
    rcases ltp with _ | p
    · simp [surgeStep] at h
    · by_cases hg : p ≠ 0 ∧ otmBuffer side strike under
      · rcases hl : hist.getLast? with _ | prev
        · simp [surgeStep, if_pos hg, hl] at h
        · simp only [surgeStep, if_pos hg, hl] at h
          by_cases hp : prev > 1/10
          · rw [if_pos hp] at h
            by_cases hm : (p - prev) / prev * 100 ≥ minPct
            · exact ⟨p, prev, rfl, rfl, hp, hg.2, hm⟩
            · rw [if_neg hm] at h
              exact absurd h (by simp)
          · rw [if_neg hp] at h
            exact absurd h (by simp)
      · simp [surgeStep, if_neg hg] at h
  · intro minPct under p vol hist hp ho
    simp [surgeStep, if_pos (And.intro hp ho)]

/-- Witness for C2 at concrete inputs: a qualifying CE observation at strike
1050 over underlying 1000 with history `[1]` appends its price, and the
emitted event there implies the OTM buffer condition. -/
theorem C2_witness :
    ((surgeStep "N" none 50 200 1000 Side.CE 1050 (some 12) 0 [1]).1 = pushBounded [1] 12) ∧
      otmBuffer Side.CE 1050 1000 := by
  constructor
  · exact (C2_surge_history "N" none 50 Side.CE 1050).2.2 200 1000 12 0 [1] (by decide)
      (by norm_num [otmBuffer])
  · obtain ⟨p, prev, hp, hprev, h01, hotm, hmin⟩ :=
      (C2_surge_history "N" none 50 Side.CE 1050).2.1 200 1000 (some 12) 0 [1]
        (SurgeEvent.mk "N" none 1050 Side.CE 1 12 1100 0 0 0 "NUCLEAR" "OTM_BOMB")
        (by norm_num [surgeStep, otmBuffer, round1, round2, round_eq, intTrunc, strengthOf,
          List.getLast?])
    exact hotm

/-- Claim C3 (code bug): with 4 stored prices `[1, 2, 4, 8]` and current
price 16 the code computes `speed` against `cache[0] = 1`, the oldest of the
whole (up to 5 deep) history, yielding 1500, which is neither of the readings
of the documented 3-tick momentum `(current − oldest-of-last-3) /
oldest-of-last-3 × 100` (700 over the last 3 stored prices, 300 counting the
current price as the third tick). -/
theorem C3_speed_full_history :
    ((surgeStep "N" none 50 50 100 Side.CE 200 (some 16) 0 [1, 2, 4, 8]).2).map SurgeEvent.speed
        = some 1500 ∧
      ((16 : ℚ) - 2) / 2 * 100 = 700 ∧ ((16 : ℚ) - 4) / 4 * 100 = 300 ∧
      (300 : ℚ) < 700 ∧ (700 : ℚ) < 1500 := by
  refine ⟨?_, by norm_num, by norm_num, by norm_num, by norm_num⟩
  norm_num [surgeStep, otmBuffer, round1, round_eq, List.getLast?]

lemma round_mono_rat {x y : ℚ} (h : x ≤ y) : round x ≤ round y := by
  rw [round_eq, round_eq]
  exact Int.floor_le_floor (by linarith)

lemma round1_ge_1000 {x : ℚ} (h : 1000 ≤ x) : 1000 ≤ round1 x := by
  have h1 : (10000 : ℤ) ≤ round (x * 10) := by
    have h2 : round ((10000 : ℚ)) ≤ round (x * 10) := round_mono_rat (by linarith)
    have h3 : round ((10000 : ℚ)) = 10000 := by
      rw [show ((10000 : ℚ)) = ((10000 : ℤ) : ℚ) by norm_num, round_intCast]
    omega
  unfold round1
  rw [le_div_iff (by norm_num : (0 : ℚ) < 10)]
  calc (1000 : ℚ) * 10 = ((10000 : ℤ) : ℚ) := by norm_num
    _ ≤ (round (x * 10) : ℚ) := by exact_mod_cast h1

lemma round1_le_1000 {x : ℚ} (h : x ≤ 1000) : round1 x ≤ 1000 := by
  have h1 : round (x * 10) ≤ (10000 : ℤ) := by
    have h2 : round (x * 10) ≤ round ((10000 : ℚ)) := round_mono_rat (by linarith)
    have h3 : round ((10000 : ℚ)) = 10000 := by
      rw [show ((10000 : ℚ)) = ((10000 : ℤ) : ℚ) by norm_num, round_intCast]
    omega
  unfold round1
  rw [div_le_iff (by norm_num : (0 : ℚ) < 10)]
  calc (round (x * 10) : ℚ) ≤ ((10000 : ℤ) : ℚ) := by exact_mod_cast h1
    _ = (1000 : ℚ) * 10 := by norm_num

lemma strengthOf_nuclear {pct : ℚ} : strengthOf pct = "NUCLEAR" ↔ pct ≥ 1000 := by
  unfold strengthOf
  by_cases h : pct ≥ 1000
  · simp [h]
  · rw [if_neg h]
    constructor
    · intro hs
      by_cases h2 : pct ≥ 500
      · rw [if_pos h2] at hs
        exact absurd hs (by decide)
      · rw [if_neg h2] at hs
        by_cases h3 : pct ≥ 300
        · rw [if_pos h3] at hs
          exact absurd hs (by decide)
        · rw [if_neg h3] at hs
          exact absurd hs (by decide)
    · intro hp
      exact absurd hp h

lemma scoreBomb_formula (e : SurgeEvent) : scoreBomb e
    = e.pct + (if e.strength = "NUCLEAR" then 5000 else 0)
      + (if e.strength = "EXTREME" then 2000 else 0)
      + (if e.speed > e.pct * (3/2) then 1000 else 0)
      + (if e.typ = "INSTITUTIONAL_BOMB" then 500 else 0) := by
  simp only [scoreBomb]
  split_ifs <;> ring

lemma scoreBomb_nuclear_lower {e : SurgeEvent} (hs : e.strength = "NUCLEAR")
    (hp : 1000 ≤ e.pct) : 6000 ≤ scoreBomb e := by
  have hne : e.strength ≠ "EXTREME" := by rw [hs]; decide
  rw [scoreBomb_formula, if_pos hs, if_neg hne]
  split_ifs <;> linarith

lemma scoreBomb_nonnuclear_upper {e : SurgeEvent} (hs : e.strength ≠ "NUCLEAR")
    (hp : e.pct ≤ 1000) : scoreBomb e ≤ 4500 := by
  rw [scoreBomb_formula, if_neg hs]
  split_ifs <;> linarith

/-- Claim C4: the ranking score is `pct` plus 5000 for NUCLEAR, 2000 for
EXTREME, 1000 when `speed > pct * 1.5` and 500 for INSTITUTIONAL_BOMB; the
scan returns the top 50 events by this score in descending order; and every
NUCLEAR event (raw pct ≥ 1000) scores strictly above every non-NUCLEAR one. -/
theorem C4_surge_ranking :
    (∀ e : SurgeEvent, scoreBomb e
        = e.pct + (if e.strength = "NUCLEAR" then 5000 else 0)
          + (if e.strength = "EXTREME" then 2000 else 0)
          + (if e.speed > e.pct * (3/2) then 1000 else 0)
          + (if e.typ = "INSTITUTIONAL_BOMB" then 500 else 0)) ∧
    (∀ out : List SurgeEvent,
        (rankSurge out).Sorted scoreGE ∧
        ∃ rest, out.Perm (rankSurge out ++ rest) ∧
          ∀ y ∈ rest, ∀ x ∈ rankSurge out, scoreBomb y ≤ scoreBomb x) ∧
    (∀ e1 e2 : SurgeEvent, WellFormedEvent e1 → WellFormedEvent e2 →
        e1.strength = "NUCLEAR" → e2.strength ≠ "NUCLEAR" →
        scoreBomb e2 < scoreBomb e1) := by
  refine ⟨?_, ?_, ?_⟩
  · exact scoreBomb_formula
  · intro out
    have hsorted : (out.insertionSort scoreGE).Sorted scoreGE :=
      List.sorted_insertionSort scoreGE out
    constructor
    · exact hsorted.sublist (List.take_sublist 50 _)
    · refine ⟨(out.insertionSort scoreGE).drop 50, ?_, ?_⟩
      · rw [rankSurge, List.take_append_drop]
        exact (List.perm_insertionSort scoreGE out).symm
      · intro y hy x hx
        have hsplit := List.pairwise_append.mp
          (by rw [List.take_append_drop]
              exact hsorted :
            ((out.insertionSort scoreGE).take 50 ++ (out.insertionSort scoreGE).drop 50).Pairwise
              scoreGE)
        exact hsplit.2.2 x hx y hy
  · rintro e1 e2 ⟨r1, hs1, hp1⟩ ⟨r2, hs2, hp2⟩ hn1 hn2
    have hr1 : 1000 ≤ r1 := strengthOf_nuclear.mp (hs1 ▸ hn1)
    have hr2 : r2 ≤ 1000 := by
      by_contra hgt
      exact hn2 (hs2.trans (strengthOf_nuclear.mpr (by linarith [not_le.mp hgt])))
    have h1 : 6000 ≤ scoreBomb e1 := scoreBomb_nuclear_lower hn1 (hp1 ▸ round1_ge_1000 hr1)
    have h2 : scoreBomb e2 ≤ 4500 := scoreBomb_nonnuclear_upper hn2 (hp2 ▸ round1_le_1000 hr2)
    linarith

/-- Witness for C4 at concrete events: a NUCLEAR event with raw pct 1200
outranks a GOOD event with raw pct 200. -/
theorem C4_witness :
    scoreBomb (SurgeEvent.mk "A" none 0 Side.CE 0 0 200 0 0 0 "GOOD" "OTM_BOMB")
      < scoreBomb (SurgeEvent.mk "A" none 0 Side.CE 0 0 1200 0 0 0 "NUCLEAR" "OTM_BOMB") :=
  C4_surge_ranking.2.2
    (SurgeEvent.mk "A" none 0 Side.CE 0 0 1200 0 0 0 "NUCLEAR" "OTM_BOMB")
    (SurgeEvent.mk "A" none 0 Side.CE 0 0 200 0 0 0 "GOOD" "OTM_BOMB")
    ⟨1200, by norm_num [strengthOf], by norm_num [round1, round_eq]⟩
    ⟨200, by norm_num [strengthOf], by norm_num [round1, round_eq]⟩
    rfl (by decide)

/-- Claim C5 (code bug): `time.sleep(max(1, interval))` sits inside the
`except` handler only, so a successful iteration publishes and immediately
re-enters the loop with no sleep at all: two successful iterations with the
running flag set produce `[scan, publish, scan, publish]` with no sleep
action, where the spec's loop would sleep for the interval after each
publish.  The stop half of the claim does hold: with the flag cleared from
the second check on, nothing is published after the first iteration. -/
theorem C5_loop_never_sleeps_on_success :
    bgLoop (fun _ => true) (fun _ => false) 15 2 0
        = [RtAction.scan, RtAction.publish, RtAction.scan, RtAction.publish] ∧
    bgLoop (fun i => decide (i < 1)) (fun _ => false) 15 5 0
        = [RtAction.scan, RtAction.publish] := by
  constructor <;> rfl

/-- The last-match-wins fold used by the CE/PE leg search never returns an
element failing the predicate unless it was the initial accumulator. -/
lemma keepLast_sat (q : Row → Prop) [DecidablePred q] :
    ∀ (l : List Row) (a : Option Row) (r : Row),
      l.foldl (fun acc x => if q x then some x else acc) a = some r →
      (r ∈ l ∧ q r) ∨ a = some r := by
  intro l
  induction l with
  | nil => exact fun a r h => Or.inr h
  | cons x rest ih =>
    intro a r h
    rcases ih _ r h with ⟨hm, hq⟩ | hacc
    · exact Or.inl ⟨List.mem_cons_of_mem x hm, hq⟩
    · by_cases hx : q x
      · simp only [if_pos hx] at hacc
        cases hacc
        exact Or.inl ⟨List.mem_cons_self x rest, hx⟩
      · simp only [if_neg hx] at hacc
        exact Or.inr hacc

/-- The last-match-wins fold yields `none` from a `none` start exactly when no
element satisfies the predicate. -/
lemma keepLast_none_iff (q : Row → Prop) [DecidablePred q] :
    ∀ (l : List Row) (a : Option Row),
      l.foldl (fun acc x => if q x then some x else acc) a = none ↔
        a = none ∧ ∀ r ∈ l, ¬ q r := by
  intro l
  induction l with
  | nil => simp
  | cons x rest ih =>
    intro a
    rw [List.foldl_cons, ih]
    by_cases hx : q x
    · rw [if_pos hx]
      simp only [reduceCtorEq, false_and, false_iff, not_and]
      intro _ hall
      exact hall x (List.mem_cons_self x rest) hx
    · rw [if_neg hx]
      constructor
      · rintro ⟨ha, hall⟩
        refine ⟨ha, fun r hr => ?_⟩
        rcases List.mem_cons.mp hr with he | hm
        · rw [he]; exact hx
        · exact hall r hm
      · rintro ⟨ha, hall⟩
        exact ⟨ha, fun r hr => hall r (List.mem_cons_of_mem x hr)⟩

lemma truthy_iff (o : Option ℚ) : truthy o = true ↔ ∃ c, o = some c ∧ c ≠ 0 := by
  cases o <;> simp [truthy]

lemma atmFallbackGo_ok (u : ℚ) :
    ∀ (l : List Row) (acc : ℚ × ℚ), (∀ r ∈ l, r.strike.isSome) →
      ∃ res, atmFallbackGo u l acc = Except.ok res := by
  intro l
  induction l with
  | nil => exact fun acc _ => ⟨acc, rfl⟩
  | cons r rest ih =>
    intro acc hall
    rcases hs : r.strike with _ | s
    · have hr := hall r (List.mem_cons_self r rest)
      rw [hs] at hr
      simp at hr
    · rcases acc with ⟨bs, bd⟩
      have htail : ∀ x ∈ rest, x.strike.isSome :=
        fun x hx => hall x (List.mem_cons_of_mem r hx)
      simp only [atmFallbackGo, hs]
      split
      · exact ih _ htail
      · exact ih _ htail

lemma resolveATM_ok (rows : List Row) (u : ℚ) (hne : rows ≠ [])
    (hall : ∀ r ∈ rows, r.strike.isSome) :
    ∃ atm, resolveATM rows u = Except.ok atm := by
  unfold resolveATM
  rcases he : atmExact rows u with _ | s
  · rcases rows with _ | ⟨r, rest⟩
    · exact absurd rfl hne
    · rcases hs : r.strike with _ | s0
      · have hr := hall r (List.mem_cons_self r rest)
        rw [hs] at hr
        simp at hr
      · obtain ⟨res, hres⟩ := atmFallbackGo_ok u rest (s0, |s0 - u|)
          (fun x hx => hall x (List.mem_cons_of_mem r hx))
        refine ⟨res.1, ?_⟩
        simp [atmFallback, hs, hres, Except.map]
  · exact ⟨s, rfl⟩

lemma straddle_undef_ce (rows : List Row) (u atm : ℚ) (hne : rows ≠ [])
    (hatm : resolveATM rows u = Except.ok atm) (hce : ceLegRow rows atm = none) :
    get_straddle_info rows (some u) = Except.ok none := by
  rcases hpe : peLegRow rows atm with _ | rp <;>
    simp [get_straddle_info, hatm, hce, hpe, if_neg hne]

lemma straddle_undef_pe (rows : List Row) (u atm : ℚ) (hne : rows ≠ [])
    (hatm : resolveATM rows u = Except.ok atm) (hpe : peLegRow rows atm = none) :
    get_straddle_info rows (some u) = Except.ok none := by
  rcases hce : ceLegRow rows atm with _ | rc <;>
    simp [get_straddle_info, hatm, hce, hpe, if_neg hne]

lemma straddle_defined (rows : List Row) (u atm : ℚ) (rc rp : Row) (a b : ℚ)
    (hne : rows ≠ []) (hatm : resolveATM rows u = Except.ok atm)
    (hce : ceLegRow rows atm = some rc) (hpe : peLegRow rows atm = some rp)
    (ha : rc.CE_iv = some a) (hb : rp.PE_iv = some b) :
    ∃ c p, rc.CE_ltp = some c ∧ c ≠ 0 ∧ rp.PE_ltp = some p ∧ p ≠ 0 ∧
      get_straddle_info rows (some u)
        = Except.ok (some ⟨round2 (c + p), round2 ((a + b) / 2), atm⟩) := by
  unfold ceLegRow at hce
  unfold peLegRow at hpe
  have hqc := keepLast_sat (fun r => r.strike = some atm ∧ truthy r.CE_ltp) rows none rc hce
  have hqp := keepLast_sat (fun r => r.strike = some atm ∧ truthy r.PE_ltp) rows none rp hpe
  rcases hqc with ⟨_, _, htc⟩ | hno
  · rcases hqp with ⟨_, _, htp⟩ | hno2
    · obtain ⟨c, hc, hc0⟩ := (truthy_iff rc.CE_ltp).mp htc
      obtain ⟨p, hp, hp0⟩ := (truthy_iff rp.PE_ltp).mp htp
      refine ⟨c, p, hc, hc0, hp, hp0, ?_⟩
      have hgc : rc.CE_ltp.getD 0 = c := by rw [hc]; rfl
      have hgp : rp.PE_ltp.getD 0 = p := by rw [hp]; rfl
      simp [get_straddle_info, hatm, if_neg hne, ceLegRow, hce, peLegRow, hpe, ha, hb, hgc, hgp]
    · cases hno2
  · cases hno

/-- Claim C6 (amended): with the data-model invariant that every row has a
defined strike, `get_straddle_info` resolves an ATM strike without raising;
it returns the fully undefined result whenever either leg is missing at that
strike — a leg being present exactly when some row at the ATM strike has a
truthy (non-`None`, non-zero) LTP for that side — and when both legs are
present and both legs' IVs are present it returns the straddle price
`CE LTP + PE LTP` and the mean IV, each rounded to 2 decimals.  (When an IV
is absent with both LTPs present it raises instead: see the separate
counterexample.) -/
theorem C6_straddle_amended (rows : List Row) (u : ℚ)
    (hall : ∀ r ∈ rows, r.strike.isSome) (hne : rows ≠ []) :
    ∃ atm, resolveATM rows u = Except.ok atm ∧
      ((ceLegRow rows atm = none ∨ peLegRow rows atm = none) →
          get_straddle_info rows (some u) = Except.ok none) ∧
      (ceLegRow rows atm = none ↔ ∀ r ∈ rows, ¬(r.strike = some atm ∧ truthy r.CE_ltp)) ∧
      (peLegRow rows atm = none ↔ ∀ r ∈ rows, ¬(r.strike = some atm ∧ truthy r.PE_ltp)) ∧
      (∀ rc rp a b, ceLegRow rows atm = some rc → peLegRow rows atm = some rp →
          rc.CE_iv = some a → rp.PE_iv = some b →
          ∃ c p, rc.CE_ltp = some c ∧ c ≠ 0 ∧ rp.PE_ltp = some p ∧ p ≠ 0 ∧
            get_straddle_info rows (some u)
              = Except.ok (some ⟨round2 (c + p), round2 ((a + b) / 2), atm⟩)) := by
  obtain ⟨atm, hatm⟩ := resolveATM_ok rows u hne hall
  refine ⟨atm, hatm, ?_, ?_, ?_, ?_⟩
  · rintro (hce | hpe)
    · exact straddle_undef_ce rows u atm hne hatm hce
    · exact straddle_undef_pe rows u atm hne hatm hpe
  · simpa [ceLegRow] using
      keepLast_none_iff (fun r => r.strike = some atm ∧ truthy r.CE_ltp) rows none
  · simpa [peLegRow] using
      keepLast_none_iff (fun r => r.strike = some atm ∧ truthy r.PE_ltp) rows none
  · intro rc rp a b hce hpe ha hb
    exact straddle_defined rows u atm rc rp a b hne hatm hce hpe ha hb



/-- Witness for C6 at the concrete one-row chain `c6rows` and underlying 100:
the straddle is defined and equals the rounded sum of the two LTPs with the
mean IV. -/
theorem C6_witness :
    get_straddle_info c6rows (some 100)
      = Except.ok (some ⟨round2 (5 + 7), round2 ((12 + 14) / 2), 100⟩) := by
  obtain ⟨atm, hatm, hundef, hceiff, hpeiff, hdef⟩ :=
    C6_straddle_amended c6rows 100 (by simp [c6rows, c6row]) (by simp [c6rows])
  have hres100 : resolveATM c6rows 100 = Except.ok 100 := by
    norm_num [resolveATM, atmExact, c6rows, c6row]
  rw [hres100] at hatm
  cases hatm
  have hce : ceLegRow c6rows 100 = some c6row := by decide
  have hpe : peLegRow c6rows 100 = some c6row := by decide
  obtain ⟨c, p, hc, hc0, hp, hp0, hres⟩ := hdef c6row c6row 12 14 hce hpe rfl rfl
  have hc5 : c = 5 := by
    have : some (5 : ℚ) = some c := hc
    cases this
    rfl
  have hp7 : p = 7 := by
    have : some (7 : ℚ) = some p := hp
    cases this
    rfl
  rw [hc5, hp7] at hres
  exact hres


/-- Counterexample to C6 as stated: on `c6badRows` both legs' LTPs are present
at the resolved ATM strike 100, yet the function raises (`None` arithmetic on
the missing IVs) instead of returning the straddle price and IV. -/
theorem C6_counterexample :
    get_straddle_info c6badRows (some 100) = Except.error () := by
  norm_num [get_straddle_info, resolveATM, atmExact, ceLegRow, peLegRow, truthy, c6badRows]


/-- Claim C10: with both legs' LTPs present and non-zero but an IV absent the
function raises (first conjunct, concrete); and a leg whose LTP is present but
zero is treated as missing — the leg search never selects a row with LTP
`some 0`, and if every row at the ATM strike has a `None` or zero CE LTP the
result is the fully undefined one. -/
theorem C10_straddle_iv_and_zero :
    (get_straddle_info c10rows (some 50) = Except.error ()) ∧
    (∀ (rows : List Row) (atm : ℚ) (rc : Row), ceLegRow rows atm = some rc →
        truthy rc.CE_ltp ∧ rc.CE_ltp ≠ some 0) ∧
    (∀ (rows : List Row) (atm : ℚ) (rp : Row), peLegRow rows atm = some rp →
        truthy rp.PE_ltp ∧ rp.PE_ltp ≠ some 0) ∧
    (∀ (rows : List Row) (u atm : ℚ), resolveATM rows u = Except.ok atm → rows ≠ [] →
        (∀ r ∈ rows, r.strike = some atm → r.CE_ltp = none ∨ r.CE_ltp = some 0) →
        get_straddle_info rows (some u) = Except.ok none) := by
  refine ⟨?_, ?_, ?_, ?_⟩
  · norm_num [get_straddle_info, resolveATM, atmExact, ceLegRow, peLegRow, truthy, c10rows]
  · intro rows atm rc hce
    unfold ceLegRow at hce
    rcases keepLast_sat (fun r => r.strike = some atm ∧ truthy r.CE_ltp) rows none rc hce with
      ⟨_, _, ht⟩ | hno
    · refine ⟨ht, ?_⟩
      obtain ⟨c, hc, hc0⟩ := (truthy_iff _).mp ht
      rw [hc]
      simp [hc0]
    · cases hno
  · intro rows atm rp hpe
    unfold peLegRow at hpe
    rcases keepLast_sat (fun r => r.strike = some atm ∧ truthy r.PE_ltp) rows none rp hpe with
      ⟨_, _, ht⟩ | hno
    · refine ⟨ht, ?_⟩
      obtain ⟨p, hp, hp0⟩ := (truthy_iff _).mp ht
      rw [hp]
      simp [hp0]
    · cases hno
  · intro rows u atm hatm hne hzero
    apply straddle_undef_ce rows u atm hne hatm
    unfold ceLegRow
    rw [keepLast_none_iff]
    refine ⟨rfl, fun r hr => ?_⟩
    rintro ⟨hs, ht⟩
    obtain ⟨c, hc, hc0⟩ := (truthy_iff _).mp ht
    rcases hzero r hr hs with h0 | h0
    · rw [h0] at hc
      cases hc
    · rw [h0] at hc
      cases hc
      exact hc0 rfl

/-- Witness for C10 at a concrete selected leg: the CE leg selected on
`c6rows` at ATM strike 100 has a truthy LTP. -/
theorem C10_witness : truthy c6row.CE_ltp = true :=
  (C10_straddle_iv_and_zero.2.1 c6rows 100 c6row (by decide)).1

/-- Claim C1 (amended): breakout hits for side CE all have strike ≥ the
underlying and for side PE strike ≤ the underlying, and the hit list is
ordered by increment descending with ties broken by the smaller absolute
distance-from-underlying percent first (the Python sort key is
`(inc, -abs(dist_pct))` descending). -/
theorem C1_build_hits_ordered (rows : List Row) (under thr : ℚ) (comp : Option ℚ) :
    (∀ h ∈ build_hits rows under thr Side.CE comp, under ≤ h.strike) ∧
    (∀ h ∈ build_hits rows under thr Side.PE comp, h.strike ≤ under) ∧
    (∀ side, (build_hits rows under thr side comp).Sorted hitGE) := by
  refine ⟨?_, ?_, ?_⟩
  · intro h hh
    rcases comp with _ | c
    · simp [build_hits] at hh
    · simp only [build_hits, List.mem_insertionSort] at hh
      obtain ⟨r, hr, hf⟩ := List.mem_filterMap.mp hh
      rcases hiv : r.iv Side.CE with _ | iv
      · rw [hiv] at hf; cases hf
      · rcases hst : r.strike with _ | strike
        · rw [hiv, hst] at hf; cases hf
        · rw [hiv, hst] at hf
          simp only at hf
          split at hf
          · cases hf
          · rename_i hside
            split at hf
            · cases hf
              push_neg at hside
              have h2 := hside.1
              simp only [true_and] at h2
              show under ≤ strike
              exact h2 trivial
            · cases hf
  · intro h hh
    rcases comp with _ | c
    · simp [build_hits] at hh
    · simp only [build_hits, List.mem_insertionSort] at hh
      obtain ⟨r, hr, hf⟩ := List.mem_filterMap.mp hh
      rcases hiv : r.iv Side.PE with _ | iv
      · rw [hiv] at hf; cases hf
      · rcases hst : r.strike with _ | strike
        · rw [hiv, hst] at hf; cases hf
        · rw [hiv, hst] at hf
          simp only at hf
          split at hf
          · cases hf
          · rename_i hside
            split at hf
            · cases hf
              push_neg at hside
              have h2 := hside.2
              simp only [true_and] at h2
              show strike ≤ under
              exact h2 trivial
            · cases hf
  · intro side
    rcases comp with _ | c
    · simp [build_hits, List.Sorted]
    · exact List.sorted_insertionSort hitGE _



lemma c1_eval : build_hits c1rows 100 0 Side.CE (some 10)
    = [⟨110, 15, none, 5, 10⟩, ⟨120, 15, none, 5, 20⟩] := by
  norm_num [build_hits, c1rows, Row.iv, Row.ltp, round2, round_eq, hitGE,
    List.insertionSort, List.orderedInsert]

/-- Counterexample to C1 as stated: on two equal-increment CE hits the code
puts the smaller distance (strike 110, 10%) before the larger one (strike
120, 20%), so the claimed larger-distance-first tie order fails on the
returned list. -/
theorem C1_counterexample :
    build_hits c1rows 100 0 Side.CE (some 10)
        = [⟨110, 15, none, 5, 10⟩, ⟨120, 15, none, 5, 20⟩] ∧
      c1claimOrderB (build_hits c1rows 100 0 Side.CE (some 10)) = false := by
  refine ⟨c1_eval, ?_⟩
  rw [c1_eval]
  decide

/-- Witness for C1 on the concrete chain `c1rows`: the first returned hit has
strike at or above the underlying, and the returned list is sorted in the
code order. -/
theorem C1_witness :
    ((100 : ℚ) ≤ (Hit.mk 110 15 none 5 10).strike) ∧
      (build_hits c1rows 100 0 Side.CE (some 10)).Sorted hitGE :=
  ⟨(C1_build_hits_ordered c1rows 100 0 (some 10)).1 (Hit.mk 110 15 none 5 10)
      (by rw [c1_eval]; exact List.mem_cons_self _ _),
   (C1_build_hits_ordered c1rows 100 0 (some 10)).2.2 Side.CE⟩

lemma pick_strike {side : Side} {r : Row} {s iv : ℚ} (h : pick side r = some (s, iv)) :
    r.strike = some s ∧ r.iv side = some iv := by
  unfold pick at h
  rcases h1 : r.iv side with _ | iv0
  · rw [h1] at h
    cases h
  · rcases h2 : r.strike with _ | s0
    · rw [h1, h2] at h
      cases h
    · rw [h1, h2] at h
      cases h
      exact ⟨rfl, rfl⟩

lemma pick_none {side : Side} {r : Row} :
    pick side r = none ↔ (r.iv side = none ∨ r.strike = none) := by
  unfold pick
  rcases h1 : r.iv side with _ | iv0 <;> rcases h2 : r.strike with _ | s0 <;> simp


lemma nsiGo_some (u : ℚ) (side : Side) :
    ∀ (l : List Row), l.Pairwise strikeOrdered →
      ∀ (s iv : ℚ), (∀ r ∈ l, ∀ p : ℚ × ℚ, pick side r = some p → s ≤ p.1) →
      ∃ s2 iv2, nsiGo u side l (some ((s, iv), |s - u|)) = some ((s2, iv2), |s2 - u|) ∧
        ((s2 = s ∧ iv2 = iv) ∨ ∃ r ∈ l, pick side r = some (s2, iv2)) ∧
        (∀ r ∈ l, ∀ p : ℚ × ℚ, pick side r = some p →
          |s2 - u| ≤ |p.1 - u| ∧ (|p.1 - u| = |s2 - u| → s2 ≤ p.1)) ∧
        |s2 - u| ≤ |s - u| ∧ (|s2 - u| = |s - u| → s2 ≤ s) := by
  intro l
  induction l with
  | nil =>
    intro _ s iv _
    exact ⟨s, iv, rfl, Or.inl ⟨rfl, rfl⟩, by simp, le_refl _, fun _ => le_refl s⟩
  | cons r rest ih =>
    intro hsort s iv hfut
    have hrel := List.pairwise_cons.mp hsort
    rcases hp : pick side r with _ | ⟨sr, ivr⟩
    · simp only [nsiGo, hp]
      obtain ⟨s2, iv2, heq, horig, hmin, hacc⟩ :=
        ih hrel.2 s iv (fun x hx => hfut x (List.mem_cons_of_mem r hx))
      refine ⟨s2, iv2, heq, ?_, ?_, hacc⟩
      · rcases horig with h | ⟨x, hx, hpx⟩
        · exact Or.inl h
        · exact Or.inr ⟨x, List.mem_cons_of_mem r hx, hpx⟩
      · intro x hx q hq
        rcases List.mem_cons.mp hx with he | hm
        · subst he
          rw [hp] at hq
          cases hq
        · exact hmin x hm q hq
    · obtain ⟨hrs, hriv⟩ := pick_strike hp
      simp only [nsiGo, hp]
      by_cases hlt : |sr - u| < |s - u|
      · rw [if_pos hlt]
        have hfut2 : ∀ x ∈ rest, ∀ q : ℚ × ℚ, pick side x = some q → sr ≤ q.1 := by
          intro x hx q hq
          obtain ⟨hxs, _⟩ := pick_strike hq
          exact hrel.1 x hx sr q.1 hrs hxs
        obtain ⟨s2, iv2, heq, horig, hmin, hacc⟩ := ih hrel.2 sr ivr hfut2
        refine ⟨s2, iv2, heq, ?_, ?_, ?_, ?_⟩
        · rcases horig with ⟨h1, h2⟩ | ⟨x, hx, hpx⟩
          · exact Or.inr ⟨r, List.mem_cons_self r rest, by rw [hp, h1, h2]⟩
          · exact Or.inr ⟨x, List.mem_cons_of_mem r hx, hpx⟩
        · intro x hx q hq
          rcases List.mem_cons.mp hx with he | hm
          · subst he
            rw [hp] at hq
            cases hq
            exact ⟨hacc.1, fun h => hacc.2 h.symm⟩
          · exact hmin x hm q hq
        · exact le_trans hacc.1 (le_of_lt hlt)
        · intro heq2
          exfalso
          have := hacc.1
          rw [heq2] at this
          exact absurd (lt_of_le_of_lt this hlt) (lt_irrefl _)
      · rw [if_neg hlt]
        push_neg at hlt
        obtain ⟨s2, iv2, heq, horig, hmin, hacc⟩ :=
          ih hrel.2 s iv (fun x hx => hfut x (List.mem_cons_of_mem r hx))
        refine ⟨s2, iv2, heq, ?_, ?_, hacc⟩
        · rcases horig with h | ⟨x, hx, hpx⟩
          · exact Or.inl h
          · exact Or.inr ⟨x, List.mem_cons_of_mem r hx, hpx⟩
        · intro x hx q hq
          rcases List.mem_cons.mp hx with he | hm
          · subst he
            rw [hp] at hq
            cases hq
            constructor
            · exact le_trans hacc.1 hlt
            · intro hdeq
              have h1 : |s2 - u| = |s - u| := le_antisymm hacc.1 (hdeq ▸ hlt)
              have h2 := hacc.2 h1
              have h3 := hfut x (List.mem_cons_self x rest) (sr, ivr) hp
              exact le_trans h2 h3
          · exact hmin x hm q hq

lemma nsi_main (u : ℚ) (side : Side) :
    ∀ (l : List Row), l.Pairwise strikeOrdered →
      (nsiGo u side l none = none ↔ ∀ r ∈ l, pick side r = none) ∧
      (∀ s iv d, nsiGo u side l none = some ((s, iv), d) →
        d = |s - u| ∧ (∃ r ∈ l, pick side r = some (s, iv)) ∧
        ∀ r ∈ l, ∀ p : ℚ × ℚ, pick side r = some p →
          |s - u| ≤ |p.1 - u| ∧ (|p.1 - u| = |s - u| → s ≤ p.1)) := by
  intro l
  induction l with
  | nil =>
    intro _
    constructor
    · simp [nsiGo]
    · intro s iv d h
      cases h
  | cons r rest ih =>
    intro hsort
    have hrel := List.pairwise_cons.mp hsort
    rcases hp : pick side r with _ | ⟨sr, ivr⟩
    · simp only [nsiGo, hp]
      obtain ⟨ihn, ihs⟩ := ih hrel.2
      constructor
      · rw [ihn]
        constructor
        · intro hall x hx
          rcases List.mem_cons.mp hx with he | hm
          · subst he
            exact hp
          · exact hall x hm
        · intro hall x hx
          exact hall x (List.mem_cons_of_mem r hx)
      · intro s iv d hres
        obtain ⟨hd, ⟨x, hx, hpx⟩, hmin⟩ := ihs s iv d hres
        refine ⟨hd, ⟨x, List.mem_cons_of_mem r hx, hpx⟩, ?_⟩
        intro y hy q hq
        rcases List.mem_cons.mp hy with he | hm
        · subst he
          rw [hp] at hq
          cases hq
        · exact hmin y hm q hq
    · obtain ⟨hrs, hriv⟩ := pick_strike hp
      simp only [nsiGo, hp]
      have hfut : ∀ x ∈ rest, ∀ q : ℚ × ℚ, pick side x = some q → sr ≤ q.1 := by
        intro x hx q hq
        obtain ⟨hxs, _⟩ := pick_strike hq
        exact hrel.1 x hx sr q.1 hrs hxs
      obtain ⟨s2, iv2, heq, horig, hmin, hacc⟩ := nsiGo_some u side rest hrel.2 sr ivr hfut
      constructor
      · constructor
        · intro h
          rw [heq] at h
          cases h
        · intro hall
          have := hall r (List.mem_cons_self r rest)
          rw [hp] at this
          cases this
      · intro s iv d hres
        rw [heq] at hres
        cases hres
        refine ⟨rfl, ?_, ?_⟩
        · rcases horig with ⟨h1, h2⟩ | ⟨x, hx, hpx⟩
          · exact ⟨r, List.mem_cons_self r rest, by rw [hp, h1, h2]⟩
          · exact ⟨x, List.mem_cons_of_mem r hx, hpx⟩
        · intro y hy q hq
          rcases List.mem_cons.mp hy with he | hm
          · subst he
            rw [hp] at hq
            cases hq
            exact ⟨hacc.1, fun h => hacc.2 h.symm⟩
          · exact hmin y hm q hq

/-- Claim C7: on rows in ascending strike order, `nearest_strike_iv` returns
`(None, None)` exactly when no row has a usable IV and strike for the side,
and otherwise returns the strike and IV of a row minimizing the absolute
distance to the underlying, with exact-distance ties resolved to the lowest
such strike (the first encountered under the strict less-than comparison). -/
theorem C7_nearest_strike_iv (rows : List Row) (under : ℚ) (side : Side)
    (hsort : rows.Pairwise strikeOrdered) :
    (nearest_strike_iv rows under side = none ↔
      ∀ r ∈ rows, r.iv side = none ∨ r.strike = none) ∧
    (∀ s iv, nearest_strike_iv rows under side = some (s, iv) →
      (∃ r ∈ rows, r.strike = some s ∧ r.iv side = some iv) ∧
      ∀ r ∈ rows, ∀ s' iv', r.strike = some s' → r.iv side = some iv' →
        |s - under| ≤ |s' - under| ∧ (|s' - under| = |s - under| → s ≤ s')) := by
  obtain ⟨hn, hs⟩ := nsi_main under side rows hsort
  constructor
  · unfold nearest_strike_iv
    rw [Option.map_eq_none', hn]
    constructor
    · intro hall r hr
      exact pick_none.mp (hall r hr)
    · intro hall r hr
      exact pick_none.mpr (hall r hr)
  · intro s iv hres
    unfold nearest_strike_iv at hres
    rcases ho : nsiGo under side rows none with _ | ⟨⟨s0, iv0⟩, d0⟩
    · rw [ho] at hres
      cases hres
    · rw [ho] at hres
      simp only [Option.map_some'] at hres
      cases hres
      obtain ⟨hd, ⟨x, hx, hpx⟩, hmin⟩ := hs s iv d0 ho
      obtain ⟨hxs, hxiv⟩ := pick_strike hpx
      refine ⟨⟨x, hx, hxs, hxiv⟩, ?_⟩
      intro y hy s' iv' hys hyiv
      have hq : pick side y = some (s', iv') := by
        unfold pick
        rw [hys, hyiv]
      exact hmin y hy (s', iv') hq

/-- Witness for C7 on the concrete single-row chain `c6rows`: the function
picks the row at strike 100 with IV 12, and the theorem instantiated there
yields its minimality at that row. -/
theorem C7_witness :
    nearest_strike_iv c6rows 100 Side.CE = some (100, 12) ∧
      |(100 : ℚ) - 100| ≤ |(100 : ℚ) - 100| := by
  have heval : nearest_strike_iv c6rows 100 Side.CE = some (100, 12) := by decide
  refine ⟨heval, ?_⟩
  exact (((C7_nearest_strike_iv c6rows 100 Side.CE (by simp [c6rows])).2 100 12 heval).2
    c6row (by simp [c6rows]) 100 12 rfl rfl).1

/-- Witness for C8 on the concrete input `c8rec`: its parsed snapshot is
sorted and its one row, which is a member of the snapshot, has a defined
strike. -/
theorem C8_witness :
    (parse_rows (some c8rec) none).rows.Sorted rowLE ∧
      (mkRow c8item).strike.isSome = true :=
  ⟨(C8_parse_rows_invariants (some c8rec) none).1.1,
   (C8_parse_rows_invariants (some c8rec) none).1.2 (mkRow c8item) (by decide)⟩
